import Mathlib

/-!
Verification of the neo-go node core against its specification.

Each section shallowly embeds one part of the Go source:
* `Mempool`   — the priority-ordered pending-transaction pool (mempool package);
* `VMCtx`     — the VM execution context (pkg/vm/context.go);
* `Arith`     — the integer arithmetic opcodes of the VM;
* `TxHash`    — transaction hashing (transaction package);
* `Storage`   — the storage Find iterator (pkg/core/interop/storage/find.go).

Machine integers are modelled as `Nat`/`Int`; Go byte slices as `List Nat`;
fallible operations return `Option` (with `none` standing for a Go panic or
a nil failure result, as noted at each definition). 256-bit hashes
(util.Uint256) are modelled by their numeric value as a `Nat` where only
their order matters, and by their raw bytes where their encoding matters.

All definitions come first, followed by all theorems.
-/

namespace NeoGo

namespace Mempool

/-- util.Uint256.CompareTo is not under src/ (only its callers are).
Modelled from the spec: the order on hashes is the order of the hash value
("then *lower* hash value ... sorts first"); the result is the comparison
sign, which is all the callers inspect. -/
def u256CompareTo (a b : Nat) : Int :=
  if a < b then -1 else if b < a then 1 else 0

/-- util.Fixed8 is an int64 fixed-point value; its CompareTo is not under
src/. Modelled from the spec: sign comparison of the numeric values. -/
def fixed8CompareTo (a b : Int) : Int :=
  if a < b then -1 else if b < a then 1 else 0

/-- transaction.Input (CoinReference) from pkg/core/transaction/input.go:
the hash of the previous transaction plus the output index. -/
structure Input where
  prevHash : Nat
  prevIndex : Nat
deriving DecidableEq

/-- The transaction type enumeration of the transaction package (not under
src/; modelled from its callers). Only equality with `claimType` is ever
inspected by the mempool. -/
inductive TXType where
  | minerType
  | claimType
  | contractType
  | invocationType
deriving DecidableEq

/-- The part of transaction.Transaction that the mempool reads: the
(memoized) hash, the transaction type and the declared inputs. The old
transaction package is not under src/ except Input; Hash() is modelled as
a stored field (transactions are "immutable once hashed"). -/
structure Transaction where
  hash : Nat
  txType : TXType
  inputs : List Input
deriving DecidableEq

/-- mempool.item: wraps a transaction with its arrival time, fee data and
the low-priority flag. -/
structure Item where
  txn : Transaction
  timeStamp : Nat
  perByteFee : Int
  netFee : Int
  isLowPrio : Bool
deriving DecidableEq

/-- `p.txn.Type == transaction.ClaimType` as computed twice inside
item.CompareTo. -/
def isClaimTx (t : Transaction) : Bool := t.txType == TXType.claimType

/-- item.CompareTo from the mempool package. The `otherP == nil` branch of
the source is dropped (values are never nil here); the early-return control
flow of the claim-transaction check inside the `p.isLowPrio &&
otherP.isLowPrio` block is flattened into one guarded branch, and the
`ret != 0 → return ret` early returns of the two fee comparisons become
if-expressions over the same comparison values. -/
def Item.CompareTo (p otherP : Item) : Int :=
  if !p.isLowPrio && otherP.isLowPrio then 1
  else if p.isLowPrio && !otherP.isLowPrio then -1
  else if p.isLowPrio && otherP.isLowPrio
      && (isClaimTx p.txn != isClaimTx otherP.txn) then
    (if isClaimTx p.txn then 1 else -1)
  else if fixed8CompareTo p.perByteFee otherP.perByteFee ≠ 0 then
    fixed8CompareTo p.perByteFee otherP.perByteFee
  else if fixed8CompareTo p.netFee otherP.netFee ≠ 0 then
    fixed8CompareTo p.netFee otherP.netFee
  else u256CompareTo otherP.txn.hash p.txn.hash

/-- The priority bucket of an item: high-priority items (bucket 1) sort
above low-priority ones (bucket 0). -/
def bucket (p : Item) : Nat := if p.isLowPrio then 0 else 1

/-- The claim-transaction rank: among low-priority items a Claim
transaction (rank 1) sorts above a non-Claim one (rank 0); for
high-priority items the rank is constantly 0 (the flag is not consulted). -/
def claimRank (p : Item) : Nat :=
  if p.isLowPrio && isClaimTx p.txn then 1 else 0

/-- The priority order described by the amended claim, written from its
words: priority bucket first, then (among low-priority items) the
claim-transaction flag, then fee-per-byte, then network fee, then the
inverted hash order; no other attribute is consulted. -/
def itemOrderSpec (p q : Item) : Int :=
  if bucket p ≠ bucket q then (if bucket q < bucket p then 1 else -1)
  else if claimRank p ≠ claimRank q then (if claimRank q < claimRank p then 1 else -1)
  else if p.perByteFee ≠ q.perByteFee then (if q.perByteFee < p.perByteFee then 1 else -1)
  else if p.netFee ≠ q.netFee then (if q.netFee < p.netFee then 1 else -1)
  else u256CompareTo q.txn.hash p.txn.hash

/-- `keyLt p q` means p has strictly lower priority than q under the
five-component lexicographic order realised by `Item.CompareTo`. -/
def keyLt (p q : Item) : Prop :=
  bucket p < bucket q ∨ (bucket p = bucket q ∧
    (claimRank p < claimRank q ∨ (claimRank p = claimRank q ∧
      (p.perByteFee < q.perByteFee ∨ (p.perByteFee = q.perByteFee ∧
        (p.netFee < q.netFee ∨ (p.netFee = q.netFee ∧
          q.txn.hash < p.txn.hash)))))))

/-- Componentwise equality of the priority keys. -/
def keyEq (p q : Item) : Prop :=
  bucket p = bucket q ∧ claimRank p = claimRank q ∧
    p.perByteFee = q.perByteFee ∧ p.netFee = q.netFee ∧ p.txn.hash = q.txn.hash

instance (p q : Item) : Decidable (keyLt p q) := by unfold keyLt; infer_instance

instance (p q : Item) : Decidable (keyEq p q) := by unfold keyEq; infer_instance

/-- The loop of Go's sort.Search(n, f): binary search over [i, j). The
`while i < j` loop is driven by a fuel counter so that the recursion is
structural; `goSearch` supplies fuel n, which bounds j - i throughout and
therefore never runs out before the loop condition fails (each step
shrinks j - i by at least one). -/
def goSearchLoop (f : Nat → Bool) : Nat → Nat → Nat → Nat
  | 0, i, _ => i
  | fuel + 1, i, j =>
    if i < j then
      if f ((i + j) / 2) then goSearchLoop f fuel i ((i + j) / 2)
      else goSearchLoop f fuel ((i + j) / 2 + 1) j
    else i

/-- Go's sort.Search(n, f) as used by Pool.Add. -/
def goSearch (n : Nat) (f : Nat → Bool) : Nat := goSearchLoop f n 0 n

/-- The Go map map[util.Uint256]*item, modelled as an association list. -/
def mapContains (m : List (Nat × Item)) (h : Nat) : Bool :=
  m.any (fun kv => kv.1 == h)

def mapInsert (m : List (Nat × Item)) (h : Nat) (it : Item) : List (Nat × Item) :=
  (h, it) :: m.filter (fun kv => kv.1 != h)

def mapDelete (m : List (Nat × Item)) (h : Nat) : List (Nat × Item) :=
  m.filter (fun kv => kv.1 != h)

/-- mempool.Pool. The sync.RWMutex is omitted: all claims are about the
sequential semantics of the operations under the lock. -/
structure Pool where
  verifiedMap : List (Nat × Item)
  verifiedTxes : List Item
  capacity : Nat

/-- NewMemPool returns a new Pool struct. -/
def newMemPool (capacity : Nat) : Pool :=
  { verifiedMap := [], verifiedTxes := [], capacity := capacity }

/-- Pool.containsKey: checks whether a transaction hash is in the pool map. -/
def Pool.containsKey (mp : Pool) (h : Nat) : Bool :=
  mapContains mp.verifiedMap h

/-- Pool.count: the total number of unconfirmed transactions. -/
def Pool.count (mp : Pool) : Nat := mp.verifiedTxes.length

/-- Pool.verifyInputs: false exactly when some declared input of tx equals
some input of a pooled transaction (the source's triple loop with early
return false). -/
def Pool.verifyInputs (mp : Pool) (tx : Transaction) : Bool :=
  if tx.inputs.isEmpty then true
  else mp.verifiedTxes.all (fun itm =>
    itm.txn.inputs.all (fun i => tx.inputs.all (fun j => i != j)))

/-- The Feer interface as consumed by Pool.Add. -/
structure Feer where
  feePerByte : Transaction → Int
  networkFee : Transaction → Int
  isLowPriority : Int → Bool

/-- The item Pool.Add builds for a transaction (the pItem literal, with
IsLowPriority applied to the computed net fee). -/
def mkItem (t : Transaction) (fee : Feer) (now : Nat) : Item :=
  { txn := t, timeStamp := now, perByteFee := fee.feePerByte t,
    netFee := fee.networkFee t,
    isLowPrio := fee.isLowPriority (fee.networkFee t) }

inductive AddErr where
  | errConflict
  | errDup
  | errOOM
deriving DecidableEq

/-- The final insertion step of Pool.Add: when n is not the last index,
`copy(verifiedTxes[n+1:], verifiedTxes[n:])` shifts everything from n one
slot right (dropping the last element, which is already pItem) and then
`verifiedTxes[n] = pItem` stores the new item at n. -/
def shiftInsert (l : List Item) (n : Nat) (p : Item) : List Item :=
  if n = l.length - 1 then l
  else l.take n ++ [p] ++ (l.drop n).take (l.length - 1 - n)

/-- The sort.Search call inside Pool.Add: the least position holding an
item strictly less prioritized than pItem (the predicate is
`pItem.CompareTo(mp.verifiedTxes[n]) > 0`; the out-of-range lookup default
is irrelevant because goSearch only tests indices below the length). -/
def searchIdx (txes : List Item) (pItem : Item) : Nat :=
  goSearch txes.length
    (fun k => decide (0 < pItem.CompareTo (txes.getD k pItem)))

/-- Pool.Add. Note that the map insertion happens before the capacity
check and is not undone on the ErrOOM return, exactly as in the source. -/
def Pool.add (mp : Pool) (t : Transaction) (fee : Feer) (now : Nat) :
    Option AddErr × Pool :=
  let pItem := mkItem t fee now
  if !(mp.verifyInputs t) then (some AddErr.errConflict, mp)
  else if mp.containsKey t.hash then (some AddErr.errDup, mp)
  else
    let m1 := mapInsert mp.verifiedMap t.hash pItem
    let n := searchIdx mp.verifiedTxes pItem
    if mp.verifiedTxes.length = mp.capacity then
      if n = mp.verifiedTxes.length then
        (some AddErr.errOOM, { mp with verifiedMap := m1 })
      else
        match mp.verifiedTxes.getLast? with
        | none =>
          -- unreachable: n < length forces a nonempty slice
          (some AddErr.errOOM, { mp with verifiedMap := m1 })
        | some unlucky =>
          let m2 := mapDelete m1 unlucky.txn.hash
          let txes1 := mp.verifiedTxes.dropLast ++ [pItem]
          (none, { mp with verifiedMap := m2,
                           verifiedTxes := shiftInsert txes1 n pItem })
    else
      let txes1 := mp.verifiedTxes ++ [pItem]
      (none, { mp with verifiedMap := m1,
                       verifiedTxes := shiftInsert txes1 n pItem })

/-- Pool.Remove. The source declares `var num int` and then iterates with
`for num := range mp.verifiedTxes { ... break }`: the loop variable shadows
the outer `num`, which therefore always stays 0; the branch on `num`
against len-1 then manipulates index 0 of the slice regardless of where
the matching transaction actually is. The comparisons are on Go ints, so
they are carried out over `Int` here (len-1 is -1 for an empty slice). -/
def Pool.remove (mp : Pool) (h : Nat) : Pool :=
  if mapContains mp.verifiedMap h then
    let m1 := mapDelete mp.verifiedMap h
    let num : Int := 0
    let txes :=
      if num < (mp.verifiedTxes.length : Int) - 1 then
        mp.verifiedTxes.take num.toNat ++ mp.verifiedTxes.drop (num.toNat + 1)
      else if num = (mp.verifiedTxes.length : Int) - 1 then
        mp.verifiedTxes.take num.toNat
      else mp.verifiedTxes
    { mp with verifiedMap := m1, verifiedTxes := txes }
  else mp

/-- Pool.GetVerifiedTransactions: the transactions of all pooled items, in
slice order. -/
def Pool.getVerifiedTransactions (mp : Pool) : List Transaction :=
  mp.verifiedTxes.map (fun i => i.txn)

/-- The slice invariant maintained by Pool.Add: verifiedTxes is sorted by
strictly descending priority. -/
def sortedDesc (l : List Item) : Prop :=
  l.Pairwise (fun a b => 0 < a.CompareTo b)

instance (l : List Item) : Decidable (sortedDesc l) := by
  unfold sortedDesc; infer_instance

/-- Two pool items that share no declared input. -/
def inputsDisjoint (a b : Item) : Prop := ∀ i ∈ a.txn.inputs, i ∉ b.txn.inputs

instance (a b : Item) : Decidable (inputsDisjoint a b) := by
  unfold inputsDisjoint; infer_instance

end Mempool

namespace VMCtx

/-- Modelled from the spec: the Instruction enumeration of the vm package
is not under src/; the spec fixes "a fixed enumeration" of published
opcode byte values, in which RET is 0x66. -/
def RET : Nat := 0x66

/-- vm.Context (pkg/vm/context.go): instruction pointer, raw program
script and breakpoints. The instruction pointer is a Go int and starts at
-1, so it is carried as an `Int`. -/
structure Context where
  ip : Int
  prog : List Nat
  breakPoints : List Int

/-- vm.NewContext. -/
def newContext (b : List Nat) : Context :=
  { ip := -1, prog := b, breakPoints := [] }

/-- Context.IP: the exposed instruction pointer, one past the internal
one. -/
def Context.IP (c : Context) : Int := c.ip + 1

/-- Context.Next: increments the instruction pointer and returns RET when
it has run past the program, the opcode byte at the new position
otherwise. Go indexes prog[c.ip] after the increment; for ip < -1
(unreachable through the API, which starts at -1 and only increments) the
Go code would panic on a negative index, while this model reads index 0. -/
def Context.next (c : Context) : Nat × Context :=
  let c' : Context := { c with ip := c.ip + 1 }
  if c'.ip ≥ (c'.prog.length : Int) then (RET, c')
  else (c'.prog.getD c'.ip.toNat 0, c')

/-- binary.LittleEndian.UintNN over a byte slice. -/
def leBytesToNat (bs : List Nat) : Nat := bs.foldr (fun b acc => b + 256 * acc) 0

/-- Context.readUint32: panics (none) when the 4-byte read would run past
the program buffer. -/
def Context.readUint32 (c : Context) : Option (Nat × Context) :=
  if c.IP + 4 > (c.prog.length : Int) then none
  else some (leBytesToNat ((c.prog.drop c.IP.toNat).take 4), { c with ip := c.ip + 4 })

/-- Context.readUint16: panics (none) when the 2-byte read would run past
the program buffer. -/
def Context.readUint16 (c : Context) : Option (Nat × Context) :=
  if c.IP + 2 > (c.prog.length : Int) then none
  else some (leBytesToNat ((c.prog.drop c.IP.toNat).take 2), { c with ip := c.ip + 2 })

/-- Context.readBytes: returns nil (none) when the read runs past the
program buffer. -/
def Context.readBytes (c : Context) (n : Nat) : Option (List Nat × Context) :=
  if c.IP + n > (c.prog.length : Int) then none
  else some ((c.prog.drop c.IP.toNat).take n, { c with ip := c.ip + n })

/-- Context.readByte is readBytes(1)[0]; indexing the nil failure result
is itself a panic, so the failure propagates. -/
def Context.readByte (c : Context) : Option (Nat × Context) :=
  match c.readBytes 1 with
  | none => none
  | some (bs, c') => some (bs.headD 0, c')

/-- Context.readVarBytes: a byte-sized length followed by that many
bytes. -/
def Context.readVarBytes (c : Context) : Option (List Nat × Context) :=
  match c.readByte with
  | none => none
  | some (n, c') => c'.readBytes n

/-- The VM states relevant to an operand read. -/
inductive VMState where
  | okState
  | faultState
deriving DecidableEq

/-- Modelled from the spec: the VM fetch-execute loop (Step/Run) that
surrounds the operand reads is not under src/. Per the spec, "all
VM-internal errors surface as a VM Fault state (never a host-level
panic/crash)": a panic or nil result from an operand read is recovered
into the Fault state. -/
def runRead {α : Type} (read : Context → Option (α × Context)) (c : Context) :
    VMState × Option (α × Context) :=
  match read c with
  | none => (VMState.faultState, none)
  | some r => (VMState.okState, some r)

end VMCtx

namespace Arith

/-- Modelled from the spec: the arithmetic opcode handlers (Add, Sub, Mul,
Div, Mod, ...) named by the vm dispatch table `opFunc` are not under src/;
only the table and the opcode tests are. Spec: "Integer ops operate on
arbitrary-precision values but must fault if the result exceeds the fixed
maximum bit-width"; "Integer values are bounded (commonly ±2^256)". -/
def maxIntBits : Nat := 256

inductive VMFault where
  | arithmeticOverflow
  | stackUnderflow
  | divisionByZero
deriving DecidableEq

inductive ArithOp where
  | addOp
  | subOp
  | mulOp
  | divOp
  | modOp
deriving DecidableEq

/-- The big-integer result of one arithmetic opcode on operands a (pushed
first) and b (pushed second, popped first); division truncates toward
zero as Go's big.Int Quo/Rem do. -/
def arithResult (op : ArithOp) (a b : Int) : Except VMFault Int :=
  match op with
  | ArithOp.addOp => Except.ok (a + b)
  | ArithOp.subOp => Except.ok (a - b)
  | ArithOp.mulOp => Except.ok (a * b)
  | ArithOp.divOp => if b = 0 then Except.error VMFault.divisionByZero else Except.ok (Int.tdiv a b)
  | ArithOp.modOp => if b = 0 then Except.error VMFault.divisionByZero else Except.ok (Int.tmod a b)

/-- Whether a result stays within the fixed maximum bit width. -/
def fitsWidth (x : Int) : Bool := x.natAbs ≤ 2 ^ maxIntBits

/-- One arithmetic opcode applied to the evaluation stack (top of the
stack first): pops two integers, faults with ArithmeticOverflow when the
result exceeds the maximum bit width, pushes the result otherwise. -/
def evalArith (op : ArithOp) (stk : List Int) : Except VMFault (List Int) :=
  match stk with
  | b :: a :: rest =>
    match arithResult op a b with
    | Except.error e => Except.error e
    | Except.ok r =>
      if fitsWidth r then Except.ok (r :: rest)
      else Except.error VMFault.arithmeticOverflow
  | _ => Except.error VMFault.stackUnderflow

end Arith

namespace TxHash

/-- The zero util.Uint256, as its 32 raw bytes (BytesBE returns the bytes
as stored). -/
def zeroU256 : List Nat := List.replicate 32 0

/-- transaction.Transaction (the nspcc transaction package): the fields of
the wire format plus the two lazily memoized hashes. Witness scripts are
omitted (they are not part of the signed encoding). Attribute and
Cosigner wire encodings are not under src/, so each element is
represented by its encoded bytes. -/
structure Transaction where
  version : Nat
  nonce : Nat
  sender : List Nat
  systemFee : Nat
  networkFee : Nat
  validUntilBlock : Nat
  attributes : List (List Nat)
  cosigners : List (List Nat)
  script : List Nat
  network : Nat
  hash : List Nat
  verificationHash : List Nat
deriving DecidableEq

/-- BinWriter.WriteU32LE. -/
def writeU32LE (x : Nat) : List Nat :=
  [x % 256, x / 2 ^ 8 % 256, x / 2 ^ 16 % 256, x / 2 ^ 24 % 256]

/-- BinWriter.WriteU64LE. -/
def writeU64LE (x : Nat) : List Nat :=
  [x % 256, x / 2 ^ 8 % 256, x / 2 ^ 16 % 256, x / 2 ^ 24 % 256,
    x / 2 ^ 32 % 256, x / 2 ^ 40 % 256, x / 2 ^ 48 % 256, x / 2 ^ 56 % 256]

/-- Modelled from the spec: the io package's variable-length unsigned
integer encoding ("varint length prefix for variable-length types") is
not under src/. -/
def writeVarUint (n : Nat) : List Nat :=
  if n < 0xFD then [n]
  else if n ≤ 0xFFFF then 0xFD :: [n % 256, n / 256 % 256]
  else if n ≤ 0xFFFFFFFF then 0xFE :: writeU32LE n
  else 0xFF :: writeU64LE n

/-- BinWriter.WriteVarBytes. -/
def writeVarBytes (b : List Nat) : List Nat := writeVarUint b.length ++ b

/-- BinWriter.WriteArray: varuint count followed by each element's
encoding. -/
def writeArray (xs : List (List Nat)) : List Nat :=
  writeVarUint xs.length ++ xs.flatten

/-- Transaction.encodeHashableFields; fails (none, the writer error) when
the script is empty. -/
def encodeHashableFields (t : Transaction) : Option (List Nat) :=
  if t.script = [] then none
  else some ([t.version % 256] ++ writeU32LE t.nonce ++ t.sender ++
    writeU64LE t.systemFee ++ writeU64LE t.networkFee ++
    writeU32LE t.validUntilBlock ++ writeArray t.attributes ++
    writeArray t.cosigners ++ writeVarBytes t.script)

/-- Transaction.GetSignedPart: the network magic followed by the hashable
fields; nil (none) when encoding fails. -/
def getSignedPart (t : Transaction) : Option (List Nat) :=
  match encodeHashableFields t with
  | none => none
  | some rest => some (writeU32LE t.network ++ rest)

/-- Transaction.updateHashes: verificationHash = Sha256(b) and hash =
Sha256(verificationHash.BytesBE()). The SHA-256 function is a parameter:
the crypto hash package is not under src/. -/
def updateHashes (sha : List Nat → List Nat) (t : Transaction) (b : List Nat) :
    Transaction :=
  { t with verificationHash := sha b, hash := sha (sha b) }

/-- Transaction.createHash. -/
def createHash (sha : List Nat → List Nat) (t : Transaction) : Option Transaction :=
  match getSignedPart t with
  | none => none
  | some b => some (updateHashes sha t b)

/-- Transaction.Hash: lazily memoized against the zero value; panics
(none) when the hash cannot be computed. Returns the hash together with
the possibly updated transaction (the Go method mutates the receiver). -/
def Transaction.Hash (sha : List Nat → List Nat) (t : Transaction) :
    Option (List Nat × Transaction) :=
  if t.hash = zeroU256 then
    match createHash sha t with
    | none => none
    | some t' => some (t'.hash, t')
  else some (t.hash, t)

/-- Transaction.VerificationHash, with the same lazy memoization. -/
def Transaction.VerificationHash (sha : List Nat → List Nat) (t : Transaction) :
    Option (List Nat × Transaction) :=
  if t.verificationHash = zeroU256 then
    match createHash sha t with
    | none => none
    | some t' => some (t'.verificationHash, t')
  else some (t.verificationHash, t)

end TxHash

namespace Storage

/-- stackitem.Item (the variants relevant to the Find iterator). -/
inductive Item where
  | byteArray : List Nat → Item
  | bufferItem : List Nat → Item
  | intItem : Int → Item
  | boolItem : Bool → Item
  | arrayItem : List Item → Item
  | structItem : List Item → Item
  | interopItem
  | nullItem

/-- Storage iterator options (find.go). FindRemovePrefixOpt carries the
source name FindRemovePrefix. -/
def FindDefault : Nat := 0

def FindKeysOnly : Nat := 1

def FindRemovePrefixOpt : Nat := 2

def FindValuesOnly : Nat := 4

def FindDeserialize : Nat := 8

def FindPick0 : Nat := 16

def FindPick1 : Nat := 32

/-- storage.Iterator over the elements of a stackitem map; opts is an
int64 whose used values are the nonnegative option bits. -/
structure Iterator where
  m : List (Item × Item)
  opts : Nat
  index : Int

/-- storage.NewIterator. -/
def NewIterator (m : List (Item × Item)) (opts : Nat) : Iterator :=
  { m := m, opts := opts, index := -1 }

/-- Iterator.Next. -/
def Iterator.next (s : Iterator) : Bool × Iterator :=
  let s' := if s.index < (s.m.length : Int) then { s with index := s.index + 1 } else s
  (decide (s'.index < (s'.m.length : Int)), s')

/-- The `.([]byte)` type assertion on an item's Value(); only the byte
variants hold raw bytes, anything else panics (none). -/
def asBytes : Item → Option (List Nat)
  | Item.byteArray b => some b
  | Item.bufferItem b => some b
  | _ => none

/-- The `.([]stackitem.Item)` type assertion on an item's Value(); only
Array and Struct hold an item slice. -/
def asItems : Item → Option (List Item)
  | Item.arrayItem xs => some xs
  | Item.structItem xs => some xs
  | _ => none

/-- Iterator.Value. Reads the element at the current index (a panic, i.e.
none, when out of range), removes the prefix byte from the key when
FindRemovePrefix is set (`key[1:]` panics on an empty key: tail? is none),
returns the bare key for FindKeysOnly, otherwise processes the value
through the optional deserialization and Pick0/Pick1 projections and
returns either the bare value (FindValuesOnly) or the key-value Struct
pair. DeserializeItem is a parameter: it lives in the stackitem package,
which is not under src/. -/
def Iterator.value (deserialize : List Nat → Option Item) (s : Iterator) : Option Item :=
  (if 0 ≤ s.index then s.m.get? s.index.toNat else none).bind fun elem =>
  (asBytes elem.1).bind fun keyBytes =>
  (if s.opts &&& FindRemovePrefixOpt ≠ 0 then keyBytes.tail? else some keyBytes).bind fun key =>
  if s.opts &&& FindKeysOnly ≠ 0 then some (Item.byteArray key)
  else
    (if s.opts &&& FindDeserialize ≠ 0 then (asBytes elem.2).bind deserialize
     else some elem.2).bind fun v1 =>
    (if s.opts &&& FindPick0 ≠ 0 then (asItems v1).bind (fun xs => xs.get? 0)
     else if s.opts &&& FindPick1 ≠ 0 then (asItems v1).bind (fun xs => xs.get? 1)
     else some v1).bind fun v2 =>
    if s.opts &&& FindValuesOnly ≠ 0 then some v2
    else some (Item.structItem [Item.byteArray key, v2])

end Storage


namespace Mempool

theorem fee_chain_bridge (a b x : Int) :
    (if fixed8CompareTo a b ≠ 0 then fixed8CompareTo a b else x)
      = (if a ≠ b then (if b < a then 1 else -1) else x) := by
  unfold fixed8CompareTo
  split_ifs <;> omega

theorem compareTo_eq_spec (p q : Item) : p.CompareTo q = itemOrderSpec p q := by
  cases hpl : p.isLowPrio <;> cases hql : q.isLowPrio <;>
    cases hpc : isClaimTx p.txn <;> cases hqc : isClaimTx q.txn <;>
      rw [Item.CompareTo, itemOrderSpec, bucket, bucket, claimRank, claimRank,
        hpl, hql, hpc, hqc, fee_chain_bridge, fee_chain_bridge] <;>
      norm_num

theorem spec_pos_iff (p q : Item) : 0 < itemOrderSpec p q ↔ keyLt q p := by
  unfold itemOrderSpec keyLt u256CompareTo
  split_ifs <;> (try simp only [false_iff, iff_false, true_iff, iff_true]) <;> omega

theorem spec_neg_iff (p q : Item) : itemOrderSpec p q < 0 ↔ keyLt p q := by
  unfold itemOrderSpec keyLt u256CompareTo
  split_ifs <;> (try simp only [false_iff, iff_false, true_iff, iff_true]) <;> omega

theorem spec_zero_iff (p q : Item) : itemOrderSpec p q = 0 ↔ keyEq p q := by
  unfold itemOrderSpec keyEq u256CompareTo
  split_ifs <;> (try simp only [false_iff, iff_false, true_iff, iff_true]) <;> omega

theorem cmp_pos_iff (p q : Item) : 0 < p.CompareTo q ↔ keyLt q p := by
  rw [compareTo_eq_spec]; exact spec_pos_iff p q

theorem cmp_neg_iff (p q : Item) : p.CompareTo q < 0 ↔ keyLt p q := by
  rw [compareTo_eq_spec]; exact spec_neg_iff p q

theorem cmp_zero_iff (p q : Item) : p.CompareTo q = 0 ↔ keyEq p q := by
  rw [compareTo_eq_spec]; exact spec_zero_iff p q

theorem keyLt_trans {p q r : Item} (h1 : keyLt p q) (h2 : keyLt q r) : keyLt p r := by
  unfold keyLt at h1 h2 ⊢; omega

theorem keyLt_asymm {p q : Item} (h : keyLt p q) : ¬ keyLt q p := by
  unfold keyLt at h ⊢; omega

theorem keyEq_hash {p q : Item} (h : keyEq p q) : p.txn.hash = q.txn.hash := by
  unfold keyEq at h; omega

/-- Trichotomy for the priority order. -/
theorem key_trichotomy (p q : Item) : keyLt p q ∨ keyEq p q ∨ keyLt q p := by
  unfold keyLt keyEq; omega

theorem goSearchLoop_le (f : Nat → Bool) (fuel i j : Nat) (hij : i ≤ j)
    (hfuel : j - i ≤ fuel) :
    i ≤ goSearchLoop f fuel i j ∧ goSearchLoop f fuel i j ≤ j := by
  induction fuel generalizing i j with
  | zero => rw [goSearchLoop]; omega
  | succ fuel ih =>
    rw [goSearchLoop]
    split
    case isTrue h =>
      split
      case isTrue hf =>
        have := ih i ((i + j) / 2) (by omega) (by omega)
        omega
      case isFalse hf =>
        have := ih ((i + j) / 2 + 1) j (by omega) (by omega)
        omega
    case isFalse h => omega

/-- Below the binary-search result every index tests false, provided the
predicate is monotone below j (sort.Search's documented contract). -/
theorem goSearchLoop_not_below (f : Nat → Bool) (fuel i j : Nat)
    (hfuel : j - i ≤ fuel)
    (hmono : ∀ a b : Nat, a ≤ b → b < j → f a = true → f b = true)
    (k : Nat) (hk : i ≤ k) (hk2 : k < goSearchLoop f fuel i j) :
    f k = false := by
  induction fuel generalizing i j with
  | zero => rw [goSearchLoop] at hk2; omega
  | succ fuel ih =>
    rw [goSearchLoop] at hk2
    by_cases h : i < j
    · rw [if_pos h] at hk2
      by_cases hf : f ((i + j) / 2) = true
      · rw [if_pos hf] at hk2
        exact ih i ((i + j) / 2) (by omega)
          (fun a b hab hb => hmono a b hab (by omega)) hk hk2
      · rw [if_neg hf] at hk2
        by_cases hk3 : (i + j) / 2 + 1 ≤ k
        · exact ih ((i + j) / 2 + 1) j (by omega) hmono hk3 hk2
        · cases hfk : f k
          · rfl
          · exact absurd (hmono k ((i + j) / 2) (by omega) (by omega) hfk) hf
    · rw [if_neg h] at hk2
      omega

/-- The binary-search result itself tests true when it is below j. -/
theorem goSearchLoop_found (f : Nat → Bool) (fuel i j : Nat)
    (hfuel : j - i ≤ fuel)
    (hres : goSearchLoop f fuel i j < j) : f (goSearchLoop f fuel i j) = true := by
  induction fuel generalizing i j with
  | zero => rw [goSearchLoop] at hres ⊢; omega
  | succ fuel ih =>
    rw [goSearchLoop] at hres ⊢
    by_cases h : i < j
    · rw [if_pos h] at hres ⊢
      by_cases hf : f ((i + j) / 2) = true
      · rw [if_pos hf] at hres ⊢
        by_cases hres2 : goSearchLoop f fuel i ((i + j) / 2) < (i + j) / 2
        · exact ih i ((i + j) / 2) (by omega) hres2
        · have hle := goSearchLoop_le f fuel i ((i + j) / 2) (by omega) (by omega)
          have he : goSearchLoop f fuel i ((i + j) / 2) = (i + j) / 2 := by omega
          rw [he]; exact hf
      · rw [if_neg hf] at hres ⊢
        exact ih ((i + j) / 2 + 1) j (by omega) hres
    · rw [if_neg h] at hres ⊢
      omega

theorem goSearch_le (n : Nat) (f : Nat → Bool) : goSearch n f ≤ n :=
  (goSearchLoop_le f n 0 n (Nat.zero_le n) (by omega)).2

theorem goSearch_not_below (n : Nat) (f : Nat → Bool)
    (hmono : ∀ a b : Nat, a ≤ b → b < n → f a = true → f b = true)
    (k : Nat) (hk : k < goSearch n f) : f k = false :=
  goSearchLoop_not_below f n 0 n (by omega) hmono k (Nat.zero_le k) hk

theorem goSearch_found (n : Nat) (f : Nat → Bool) (h : goSearch n f < n) :
    f (goSearch n f) = true :=
  goSearchLoop_found f n 0 n (by omega) h

theorem cmp_self (p : Item) : p.CompareTo p = 0 :=
  (cmp_zero_iff p p).mpr ⟨rfl, rfl, rfl, rfl, rfl⟩

theorem cmp_swap_pos {p q : Item} (h : p.CompareTo q < 0) : 0 < q.CompareTo p :=
  (cmp_pos_iff q p).mpr ((cmp_neg_iff p q).mp h)

theorem cmp_trans_pos {p q r : Item} (h1 : 0 < p.CompareTo q) (h2 : 0 < q.CompareTo r) :
    0 < p.CompareTo r :=
  (cmp_pos_iff p r).mpr
    (keyLt_trans ((cmp_pos_iff q r).mp h2) ((cmp_pos_iff p q).mp h1))

theorem cmp_neg_of_nonpos_hash_ne {p q : Item} (h1 : ¬ 0 < p.CompareTo q)
    (h2 : p.txn.hash ≠ q.txn.hash) : p.CompareTo q < 0 := by
  rcases lt_trichotomy (p.CompareTo q) 0 with h | h | h
  · exact h
  · exact absurd (keyEq_hash ((cmp_zero_iff p q).mp h)) h2
  · exact absurd h h1

theorem shiftInsert_append (td : List Item) (p : Item) (n : Nat) (hn : n ≤ td.length) :
    shiftInsert (td ++ [p]) n p = td.take n ++ [p] ++ td.drop n := by
  unfold shiftInsert
  rcases Nat.lt_or_ge n td.length with h | h
  · rw [if_neg (by simp; omega)]
    rw [List.take_append_of_le_length (by omega),
      List.drop_append_of_le_length (by omega)]
    have hlen : ((td ++ [p]).length - 1 - n) = (td.drop n).length := by
      simp
    rw [hlen, List.take_append_of_le_length (le_refl _), List.take_length]
  · have he : n = td.length := by omega
    rw [if_pos (by simp; omega), he, List.take_length, List.drop_length]
    simp

/-- Inserting p at position n keeps the list sorted and permutes to
p :: td, provided everything before n beats p and p beats everything from
n on. -/
theorem insert_sorted_perm (td : List Item) (p : Item) (n : Nat)
    (hs : sortedDesc td) (hn : n ≤ td.length)
    (hbelow : ∀ (k : Nat) (hk : k < td.length), k < n → 0 < (td[k]).CompareTo p)
    (habove : ∀ (k : Nat) (hk : k < td.length), n ≤ k → 0 < p.CompareTo td[k]) :
    sortedDesc (td.take n ++ [p] ++ td.drop n) ∧
      (td.take n ++ [p] ++ td.drop n).Perm (p :: td) := by
  constructor
  · unfold sortedDesc at hs ⊢
    rw [List.append_assoc, List.pairwise_append]
    refine ⟨hs.sublist (List.take_sublist n td), ?_, ?_⟩
    · rw [List.singleton_append, List.pairwise_cons]
      refine ⟨?_, hs.sublist (List.drop_sublist n td)⟩
      intro y hy
      obtain ⟨i, hi, hiy⟩ := List.mem_iff_getElem.mp hy
      have hni : n + i < td.length := by simp at hi; omega
      have hiy' : y = td[n + i] := by
        rw [← hiy]; exact (List.getElem_drop td)
      subst hiy'
      exact habove (n + i) hni (Nat.le_add_right n i)
    · intro x hx y hy
      obtain ⟨a, ha, hax⟩ := List.mem_iff_getElem.mp hx
      have hal : a < td.length := by simp at ha; omega
      have hax' : x = td[a] := by
        rw [← hax]; exact (List.getElem_take td)
      subst hax'
      rcases List.mem_cons.mp hy with hyp | hyd
      · subst hyp; exact hbelow a hal (by simp at ha; omega)
      · obtain ⟨i, hi, hiy⟩ := List.mem_iff_getElem.mp hyd
        have hni : n + i < td.length := by simp at hi; omega
        have hiy' : y = td[n + i] := by
          rw [← hiy]; exact (List.getElem_drop td)
        subst hiy'
        exact (List.pairwise_iff_getElem.mp hs) a (n + i)
          (by simp at ha; omega) (by simp at hi; omega) (by simp at ha; omega)
  · calc (td.take n ++ [p] ++ td.drop n).Perm (p :: (td.take n ++ td.drop n)) := by
          rw [List.append_assoc]; exact List.perm_middle
      _ = (p :: td) := by rw [List.take_append_drop]

/-- verifyInputs is true exactly when no pooled transaction shares a
declared input with tx. -/
theorem verifyInputs_true_iff (mp : Pool) (t : Transaction) :
    mp.verifyInputs t = true ↔
      ∀ itm ∈ mp.verifiedTxes, ∀ i ∈ itm.txn.inputs, i ∉ t.inputs := by
  unfold Pool.verifyInputs
  by_cases he : t.inputs.isEmpty
  · rw [if_pos he]
    have : t.inputs = [] := List.isEmpty_iff.mp he
    simp [this]
  · rw [if_neg he]
    simp only [List.all_eq_true, bne_iff_ne]
    constructor
    · intro h itm hitm i hi hmem
      exact h itm hitm i hi i hmem rfl
    · intro h itm hitm i hi j hj he2
      exact h itm hitm i hi (he2 ▸ hj)

theorem searchIdx_le (txes : List Item) (p : Item) : searchIdx txes p ≤ txes.length :=
  goSearch_le _ _

/-- On a sorted slice the sort.Search predicate is monotone, so every index
below the result beats p, provided p's hash differs from all pooled hashes. -/
theorem searchIdx_below (txes : List Item) (p : Item) (hs : sortedDesc txes)
    (hhash : ∀ q ∈ txes, q.txn.hash ≠ p.txn.hash)
    (k : Nat) (hk : k < txes.length) (hkn : k < searchIdx txes p) :
    0 < (txes[k]).CompareTo p := by
  unfold searchIdx at hkn
  have hmono : ∀ a b : Nat, a ≤ b → b < txes.length →
      (fun k => decide (0 < p.CompareTo (txes.getD k p))) a = true →
      (fun k => decide (0 < p.CompareTo (txes.getD k p))) b = true := by
    intro a b hab hb hfa
    simp only [decide_eq_true_eq] at hfa ⊢
    rw [List.getD_eq_getElem txes p (by omega)] at hfa
    rw [List.getD_eq_getElem txes p hb]
    rcases Nat.eq_or_lt_of_le hab with he | hlt
    · subst he; exact hfa
    · exact cmp_trans_pos hfa
        ((List.pairwise_iff_getElem.mp hs) a b (by omega) hb hlt)
  have hfalse := goSearch_not_below txes.length _ hmono k hkn
  simp only [List.getD_eq_getElem txes p hk, decide_eq_false_iff_not] at hfalse
  have hne : p.txn.hash ≠ (txes[k]).txn.hash :=
    fun he => hhash txes[k] (List.getElem_mem hk) he.symm
  exact cmp_swap_pos (cmp_neg_of_nonpos_hash_ne hfalse hne)

/-- From the search result on, p beats every index of a sorted slice. -/
theorem searchIdx_above (txes : List Item) (p : Item) (hs : sortedDesc txes)
    (k : Nat) (hk : k < txes.length) (hkn : searchIdx txes p ≤ k) :
    0 < p.CompareTo txes[k] := by
  have hn : searchIdx txes p < txes.length := by omega
  unfold searchIdx at hn hkn
  have hfound := goSearch_found txes.length
    (fun k => decide (0 < p.CompareTo (txes.getD k p))) hn
  simp only [List.getD_eq_getElem txes p hn, decide_eq_true_eq] at hfound
  rcases Nat.eq_or_lt_of_le hkn with he | hlt
  · exact he ▸ hfound
  · exact cmp_trans_pos hfound
      ((List.pairwise_iff_getElem.mp hs) _ k hn hk hlt)

/-- The search runs off the end exactly when p sorts strictly below every
pooled item. -/
theorem searchIdx_eq_length_iff (txes : List Item) (p : Item) (hs : sortedDesc txes)
    (hhash : ∀ q ∈ txes, q.txn.hash ≠ p.txn.hash) :
    searchIdx txes p = txes.length ↔ ∀ q ∈ txes, p.CompareTo q < 0 := by
  constructor
  · intro he q hq
    obtain ⟨k, hk, hkq⟩ := List.mem_iff_getElem.mp hq
    subst hkq
    have := searchIdx_below txes p hs hhash k hk (by omega)
    exact (cmp_neg_iff p _).mpr ((cmp_pos_iff _ p).mp this)
  · intro hall
    by_contra hne
    have hn : searchIdx txes p < txes.length :=
      Nat.lt_of_le_of_ne (searchIdx_le txes p) hne
    have := searchIdx_above txes p hs _ hn (le_refl _)
    have hneg := hall _ (List.getElem_mem hn)
    omega

theorem insert_perm (td : List Item) (p : Item) (n : Nat) :
    (td.take n ++ [p] ++ td.drop n).Perm (p :: td) := by
  calc (td.take n ++ [p] ++ td.drop n).Perm (p :: (td.take n ++ td.drop n)) := by
        rw [List.append_assoc]; exact List.perm_middle
    _ = (p :: td) := by rw [List.take_append_drop]

theorem inputsDisjoint_symm {a b : Item} (h : inputsDisjoint a b) :
    inputsDisjoint b a :=
  fun i hib hia => h i hia hib

/-- The pool slice after Add is either unchanged (on any error) or a
permutation of the new item consed onto a sub-slice of the old one, and in
the latter case the inputs check passed. -/
theorem add_verifiedTxes_cases (mp : Pool) (t : Transaction) (fee : Feer) (now : Nat) :
    (mp.add t fee now).2.verifiedTxes = mp.verifiedTxes ∨
    (mp.verifyInputs t = true ∧
      ∃ td, td.Sublist mp.verifiedTxes ∧
        ((mp.add t fee now).2.verifiedTxes).Perm (mkItem t fee now :: td)) := by
  by_cases hvi : mp.verifyInputs t
  case neg =>
    left
    simp [Pool.add, hvi]
  case pos =>
  by_cases hck : mp.containsKey t.hash
  case pos =>
    left
    simp [Pool.add, hvi, hck]
  case neg =>
  by_cases hcap : mp.verifiedTxes.length = mp.capacity
  case pos =>
    by_cases hn : searchIdx mp.verifiedTxes (mkItem t fee now) = mp.verifiedTxes.length
    case pos =>
      left
      have hn2 : searchIdx mp.verifiedTxes (mkItem t fee now) = mp.capacity := by
        rw [← hcap]; exact hn
      simp [Pool.add, hvi, hck, hcap, hn2]
    case neg =>
      right
      refine ⟨hvi, mp.verifiedTxes.dropLast, List.dropLast_sublist mp.verifiedTxes, ?_⟩
      have hn_lt : searchIdx mp.verifiedTxes (mkItem t fee now) < mp.verifiedTxes.length :=
        Nat.lt_of_le_of_ne (searchIdx_le _ _) hn
      have hne : mp.verifiedTxes ≠ [] := by
        intro he; rw [he] at hn_lt; simp at hn_lt
      have hlast : mp.verifiedTxes.getLast? = some (mp.verifiedTxes.getLast hne) :=
        List.getLast?_eq_getLast mp.verifiedTxes hne
      have hn2 : ¬ searchIdx mp.verifiedTxes (mkItem t fee now) = mp.capacity := by
        rw [← hcap]; exact hn
      have hres : (mp.add t fee now).2.verifiedTxes =
          shiftInsert (mp.verifiedTxes.dropLast ++ [mkItem t fee now])
            (searchIdx mp.verifiedTxes (mkItem t fee now)) (mkItem t fee now) := by
        simp [Pool.add, hvi, hck, hcap, hn, hn2, hlast]
      rw [hres, shiftInsert_append _ _ _ (by rw [List.length_dropLast]; omega)]
      exact insert_perm _ _ _
  case neg =>
    right
    refine ⟨hvi, mp.verifiedTxes, List.Sublist.refl _, ?_⟩
    have hres : (mp.add t fee now).2.verifiedTxes =
        shiftInsert (mp.verifiedTxes ++ [mkItem t fee now])
          (searchIdx mp.verifiedTxes (mkItem t fee now)) (mkItem t fee now) := by
      simp [Pool.add, hvi, hck, hcap]
    rw [hres, shiftInsert_append _ _ _ (searchIdx_le _ _)]
    exact insert_perm _ _ _


/-- C7: a transaction sharing an input with any pooled transaction is
rejected with the conflict error and the pool is unchanged; consequently
pairwise input-disjointness of the pool is preserved by Add and Remove, so
no two transactions sharing an input ever coexist. -/
theorem mempool_conflict_policy (mp : Pool) (t : Transaction) (fee : Feer) (now : Nat) :
    ((∃ q ∈ mp.verifiedTxes, ∃ i ∈ q.txn.inputs, i ∈ t.inputs) →
        mp.add t fee now = (some AddErr.errConflict, mp)) ∧
    (mp.verifiedTxes.Pairwise inputsDisjoint →
        ((mp.add t fee now).2.verifiedTxes).Pairwise inputsDisjoint) ∧
    (∀ h : Nat, mp.verifiedTxes.Pairwise inputsDisjoint →
        ((mp.remove h).verifiedTxes).Pairwise inputsDisjoint) := by
  refine ⟨?_, ?_, ?_⟩
  · rintro ⟨q, hq, i, hi, hit⟩
    have hfalse : mp.verifyInputs t = false := by
      rcases Bool.eq_false_or_eq_true (mp.verifyInputs t) with h | h
      · exact absurd hit ((verifyInputs_true_iff mp t).mp h q hq i hi)
      · exact h
    simp [Pool.add, hfalse]
  · intro hpw
    rcases add_verifiedTxes_cases mp t fee now with he | ⟨hvi, td, hsub, hperm⟩
    · rw [he]; exact hpw
    · rw [hperm.pairwise_iff (fun hab => inputsDisjoint_symm hab)]
      refine List.Pairwise.cons ?_ (hpw.sublist hsub)
      intro q hq
      exact inputsDisjoint_symm (fun i hi =>
        (verifyInputs_true_iff mp t).mp hvi q (hsub.mem hq) i hi)
  · intro h hpw
    unfold Pool.remove
    split_ifs <;>
      (try simp only [Int.toNat_zero, List.take_zero, List.nil_append, zero_add]) <;>
      (try split_ifs) <;>
      first
      | exact hpw
      | exact hpw.sublist (List.drop_sublist _ _)
      | exact List.Pairwise.nil

/-- C3: with the pool at capacity and the new transaction neither a
duplicate nor conflicting, Add returns the out-of-memory error exactly
when the new item sorts below every existing entry; otherwise it evicts
the single lowest-priority entry (the last of the descending-sorted
slice, below or equal to every entry and below the new item) and inserts
the new one, leaving capacity-many entries that are exactly the highest
priority ones of the old pool plus the new item, still sorted by the
tie-break order. -/
theorem mempool_add_capacity_policy
    (mp : Pool) (t : Transaction) (fee : Feer) (now : Nat)
    (hs : sortedDesc mp.verifiedTxes)
    (hfull : mp.verifiedTxes.length = mp.capacity)
    (hnc : mp.verifyInputs t = true)
    (hnd : mp.containsKey t.hash = false)
    (hhash : ∀ q ∈ mp.verifiedTxes, q.txn.hash ≠ t.hash) :
    ((mp.add t fee now).1 = some AddErr.errOOM ↔
        ∀ q ∈ mp.verifiedTxes, (mkItem t fee now).CompareTo q < 0) ∧
    ((mp.add t fee now).1 = some AddErr.errOOM →
        (mp.add t fee now).2.verifiedTxes = mp.verifiedTxes) ∧
    ((mp.add t fee now).1 ≠ some AddErr.errOOM →
        (mp.add t fee now).1 = none ∧
        ∃ evicted, mp.verifiedTxes.getLast? = some evicted ∧
          (∀ q ∈ mp.verifiedTxes, 0 ≤ q.CompareTo evicted) ∧
          0 < (mkItem t fee now).CompareTo evicted ∧
          ((mp.add t fee now).2.verifiedTxes).Perm
            (mkItem t fee now :: mp.verifiedTxes.dropLast) ∧
          sortedDesc (mp.add t fee now).2.verifiedTxes ∧
          (mp.add t fee now).2.verifiedTxes.length = mp.capacity) := by
  have hhash2 : ∀ q ∈ mp.verifiedTxes, q.txn.hash ≠ (mkItem t fee now).txn.hash := hhash
  by_cases hOOM : searchIdx mp.verifiedTxes (mkItem t fee now) = mp.verifiedTxes.length
  · have hadd : mp.add t fee now = (some AddErr.errOOM,
        { mp with verifiedMap := mapInsert mp.verifiedMap t.hash (mkItem t fee now) }) := by
      simp [Pool.add, hnc, hnd, hfull, hOOM]
    rw [hadd]
    refine ⟨?_, fun _ => rfl, fun h => absurd rfl h⟩
    simpa using (searchIdx_eq_length_iff mp.verifiedTxes (mkItem t fee now) hs hhash2).mp hOOM
  · have hn_le := searchIdx_le mp.verifiedTxes (mkItem t fee now)
    have hn_lt : searchIdx mp.verifiedTxes (mkItem t fee now) < mp.verifiedTxes.length := by
      omega
    have hne : mp.verifiedTxes ≠ [] := by
      intro he
      rw [he] at hn_lt
      simp at hn_lt
    have hlast : mp.verifiedTxes.getLast? = some (mp.verifiedTxes.getLast hne) :=
      List.getLast?_eq_getLast mp.verifiedTxes hne
    have hOOM2 : ¬ searchIdx mp.verifiedTxes (mkItem t fee now) = mp.capacity := by
      rw [← hfull]; exact hOOM
    have hadd : mp.add t fee now = (none,
        { mp with
            verifiedMap := mapDelete
              (mapInsert mp.verifiedMap t.hash (mkItem t fee now))
              (mp.verifiedTxes.getLast hne).txn.hash,
            verifiedTxes := shiftInsert
              (mp.verifiedTxes.dropLast ++ [mkItem t fee now])
              (searchIdx mp.verifiedTxes (mkItem t fee now)) (mkItem t fee now) }) := by
      simp [Pool.add, hnc, hnd, hfull, hOOM, hOOM2, hlast]
    rw [hadd]
    have htd : (searchIdx mp.verifiedTxes (mkItem t fee now)) ≤ mp.verifiedTxes.dropLast.length := by
      rw [List.length_dropLast]; omega
    have hshift := shiftInsert_append mp.verifiedTxes.dropLast (mkItem t fee now)
      (searchIdx mp.verifiedTxes (mkItem t fee now)) htd
    have hlpos : mp.verifiedTxes.length - 1 < mp.verifiedTxes.length := by
      have := List.length_pos.mpr hne; omega
    have hlast_idx : mp.verifiedTxes.getLast hne
        = mp.verifiedTxes[mp.verifiedTxes.length - 1] :=
      List.getLast_eq_getElem mp.verifiedTxes hne
    have hsp := insert_sorted_perm mp.verifiedTxes.dropLast (mkItem t fee now)
      (searchIdx mp.verifiedTxes (mkItem t fee now))
      (hs.sublist (List.dropLast_sublist mp.verifiedTxes)) htd
      (by
        intro k hk hkn
        rw [List.getElem_dropLast]
        exact searchIdx_below mp.verifiedTxes (mkItem t fee now) hs hhash2 k
          (by rw [List.length_dropLast] at hk; omega) hkn)
      (by
        intro k hk hkn
        rw [List.getElem_dropLast]
        exact searchIdx_above mp.verifiedTxes (mkItem t fee now) hs k
          (by rw [List.length_dropLast] at hk; omega) hkn)
    constructor
    · constructor
      · intro h; exact absurd h (by simp)
      · intro hall
        exact absurd ((searchIdx_eq_length_iff mp.verifiedTxes (mkItem t fee now)
          hs hhash2).mpr hall) hOOM
    refine ⟨fun h => absurd h (by simp), fun _ => ⟨rfl, mp.verifiedTxes.getLast hne,
      hlast, ?_, ?_, ?_, ?_, ?_⟩⟩
    · intro q hq
      obtain ⟨k, hk, hkq⟩ := List.mem_iff_getElem.mp hq
      subst hkq
      rw [hlast_idx]
      rcases Nat.lt_or_ge k (mp.verifiedTxes.length - 1) with hklt | hkge
      · exact le_of_lt ((List.pairwise_iff_getElem.mp hs) k (mp.verifiedTxes.length - 1)
          hk (by omega) hklt)
      · have hke : k = mp.verifiedTxes.length - 1 := by omega
        subst hke
        rw [cmp_self]
    · rw [hlast_idx]
      exact searchIdx_above mp.verifiedTxes (mkItem t fee now) hs _ (by omega) (by omega)
    · simp only [hshift]
      exact hsp.2
    · simp only [hshift]
      exact hsp.1
    · simp only [hshift]
      simp [List.length_take, List.length_dropLast]
      omega

/-- C3 witness: a concrete capacity-2 pool where adding a mid-priority
transaction evicts the lowest-priority entry. -/
theorem mempool_add_capacity_policy_witness :
    (let iA : Item :=
      { txn := { hash := 5, txType := TXType.contractType, inputs := [] },
        timeStamp := 0, perByteFee := 10, netFee := 10, isLowPrio := false };
    let iB : Item :=
      { txn := { hash := 6, txType := TXType.contractType, inputs := [] },
        timeStamp := 0, perByteFee := 1, netFee := 1, isLowPrio := false };
    let mp : Pool :=
      { verifiedMap := [(5, iA), (6, iB)], verifiedTxes := [iA, iB],
        capacity := 2 };
    let t : Transaction := { hash := 7, txType := TXType.contractType, inputs := [] };
    let fee : Feer :=
      { feePerByte := fun _ => 5, networkFee := fun _ => 5,
        isLowPriority := fun _ => false };
    sortedDesc mp.verifiedTxes ∧
    (((mp.add t fee 0).1 = some AddErr.errOOM ↔
        ∀ q ∈ mp.verifiedTxes, (mkItem t fee 0).CompareTo q < 0) ∧
    ((mp.add t fee 0).1 = some AddErr.errOOM →
        (mp.add t fee 0).2.verifiedTxes = mp.verifiedTxes) ∧
    ((mp.add t fee 0).1 ≠ some AddErr.errOOM →
        (mp.add t fee 0).1 = none ∧
        ∃ evicted, mp.verifiedTxes.getLast? = some evicted ∧
          (∀ q ∈ mp.verifiedTxes, 0 ≤ q.CompareTo evicted) ∧
          0 < (mkItem t fee 0).CompareTo evicted ∧
          ((mp.add t fee 0).2.verifiedTxes).Perm
            (mkItem t fee 0 :: mp.verifiedTxes.dropLast) ∧
          sortedDesc (mp.add t fee 0).2.verifiedTxes ∧
          (mp.add t fee 0).2.verifiedTxes.length = mp.capacity))) :=
  ⟨by decide, mempool_add_capacity_policy _ _ _ _ (by decide) (by decide) (by decide)
    (by decide) (by decide)⟩

/-- C7 witness: a concrete pool rejecting a double-spending transaction
with the conflict error, with disjointness preserved. -/
theorem mempool_conflict_policy_witness :
    (let iA : Item :=
      { txn := { hash := 5, txType := TXType.contractType,
                 inputs := [{ prevHash := 9, prevIndex := 0 }] },
        timeStamp := 0, perByteFee := 10, netFee := 10, isLowPrio := false };
    let mp : Pool := { verifiedMap := [(5, iA)], verifiedTxes := [iA], capacity := 4 };
    let t : Transaction :=
      { hash := 7, txType := TXType.contractType,
        inputs := [{ prevHash := 9, prevIndex := 0 }] };
    let fee : Feer :=
      { feePerByte := fun _ => 5, networkFee := fun _ => 5,
        isLowPriority := fun _ => false };
    (∃ q ∈ mp.verifiedTxes, ∃ i ∈ q.txn.inputs, i ∈ t.inputs) ∧
    mp.add t fee 0 = (some AddErr.errConflict, mp)) :=
  ⟨by decide, (mempool_conflict_policy _ _ _ _).1 (by decide)⟩

/-- C4 counterexample: two low-priority items where the one with the
higher fee-per-byte nevertheless sorts below the other, because the other
is a Claim transaction — an attribute the claim says does not influence
the order. -/
theorem mempool_compareTo_claim_counterexample :
    (let pA : Item :=
      { txn := { hash := 1, txType := TXType.contractType, inputs := [] },
        timeStamp := 0, perByteFee := 100, netFee := 100, isLowPrio := true };
    let pB : Item :=
      { txn := { hash := 2, txType := TXType.claimType, inputs := [] },
        timeStamp := 0, perByteFee := 1, netFee := 1, isLowPrio := true };
    pA.isLowPrio = pB.isLowPrio ∧ pB.perByteFee < pA.perByteFee ∧
      pA.CompareTo pB < 0) := by
  decide

/-- C4 amended: the relative priority of two items is determined exactly
by: a low-priority item always sorts below a high-priority item; among two
low-priority items a Claim-type transaction sorts above a non-Claim one;
then a higher fee-per-byte sorts first, then a higher network fee, then
the lower transaction hash sorts first; no other attribute influences the
order. -/
theorem mempool_compareTo_amended (p q : Item) : p.CompareTo q = itemOrderSpec p q :=
  compareTo_eq_spec p q

/-- C5: evaluating Pool.Add at a full pool shows the out-of-memory error
path leaving the rejected transaction's hash in the map: ContainsKey
reports true for a transaction that was rejected and is absent from the
slice, contradicting the claim that an erroring Add leaves the pool
unchanged. -/
theorem mempool_add_oom_containsKey_bug :
    (let iA : Item :=
      { txn := { hash := 1, txType := TXType.contractType, inputs := [] },
        timeStamp := 0, perByteFee := 10, netFee := 10, isLowPrio := false };
    let mp : Pool := { verifiedMap := [(1, iA)], verifiedTxes := [iA], capacity := 1 };
    let t : Transaction := { hash := 2, txType := TXType.contractType, inputs := [] };
    let fee : Feer :=
      { feePerByte := fun _ => 1, networkFee := fun _ => 1,
        isLowPriority := fun _ => true };
    (mp.add t fee 0).1 = some AddErr.errOOM ∧
      mp.containsKey t.hash = false ∧
      (mp.add t fee 0).2.containsKey t.hash = true ∧
      (mp.add t fee 0).2.count = mp.count ∧
      (mp.add t fee 0).2.verifiedTxes = mp.verifiedTxes) := by
  decide

/-- C6: evaluating Pool.Remove at a two-element pool shows the shadowed
loop variable bug: removing the second transaction's hash deletes it from
the map but removes the FIRST slice entry, so the removed transaction is
still returned by GetVerifiedTransactions while the other transaction
disappears. -/
theorem mempool_remove_wrong_item_bug :
    (let tA : Transaction := { hash := 1, txType := TXType.contractType, inputs := [] };
    let tB : Transaction := { hash := 2, txType := TXType.contractType, inputs := [] };
    let iA : Item :=
      { txn := tA, timeStamp := 0, perByteFee := 10, netFee := 10,
        isLowPrio := false };
    let iB : Item :=
      { txn := tB, timeStamp := 0, perByteFee := 1, netFee := 1,
        isLowPrio := false };
    let mp : Pool :=
      { verifiedMap := [(1, iA), (2, iB)], verifiedTxes := [iA, iB],
        capacity := 10 };
    (mp.remove 2).containsKey 2 = false ∧
      (mp.remove 2).getVerifiedTransactions = [tB] ∧
      tB ∈ (mp.remove 2).getVerifiedTransactions ∧
      tA ∉ (mp.remove 2).getVerifiedTransactions ∧
      (mp.remove 2).count = 1) := by
  decide
end Mempool

end NeoGo

namespace NeoGo

namespace VMCtx

/-- C10: Next() with the instruction pointer at or past the end of the
program returns the implicit RET (so a script without a trailing RET still
terminates through it); otherwise it advances the instruction pointer by
exactly one and returns the opcode byte at the new position. In both
cases the internal pointer advances by one. -/
theorem context_next_spec (c : Context) :
    (c.IP ≥ (c.prog.length : Int) →
        (c.next).1 = RET ∧ (c.next).2.ip = c.ip + 1) ∧
    (c.IP < (c.prog.length : Int) →
        (c.next).1 = c.prog.getD c.IP.toNat 0 ∧ (c.next).2.ip = c.ip + 1) := by
  constructor <;> intro h <;>
    simp only [Context.next, Context.IP] at h ⊢ <;>
    split_ifs with hif <;>
    first
    | exact ⟨rfl, rfl⟩
    | (exfalso; omega)

theorem context_next_spec_witness :
    (Context.IP { ip := 1, prog := [5, 6], breakPoints := [] } ≥ 2 ∧
      (Context.next { ip := 1, prog := [5, 6], breakPoints := [] }).1 = RET) ∧
    (Context.IP { ip := -1, prog := [5, 6], breakPoints := [] } < 2 ∧
      (Context.next { ip := -1, prog := [5, 6], breakPoints := [] }).1 = 5) :=
  ⟨⟨by decide, ((context_next_spec _).1 (by decide)).1⟩,
   ⟨by decide, ((context_next_spec _).2 (by decide)).1⟩⟩

/-- C2: every multi-byte immediate operand read checks that it does not
run past the program buffer: the 2-byte and 4-byte reads and the
length-prefixed byte read refuse an out-of-bounds access (the source
panics or returns nil without touching memory out of range) and the VM
surfaces the failure as a Fault, never a crash of the host process
(runRead is total and maps every read failure to faultState); in-bounds
4-byte reads succeed with the little-endian value. -/
theorem context_read_bounds (c : Context) (n : Nat) :
    (c.IP + 4 > (c.prog.length : Int) →
        runRead Context.readUint32 c = (VMState.faultState, none)) ∧
    (c.IP + 2 > (c.prog.length : Int) →
        runRead Context.readUint16 c = (VMState.faultState, none)) ∧
    (c.IP + (n : Int) > (c.prog.length : Int) →
        runRead (fun ctx => ctx.readBytes n) c = (VMState.faultState, none)) ∧
    (c.IP + 4 ≤ (c.prog.length : Int) →
        runRead Context.readUint32 c =
          (VMState.okState, some (leBytesToNat ((c.prog.drop c.IP.toNat).take 4),
            { c with ip := c.ip + 4 }))) := by
  refine ⟨?_, ?_, ?_, ?_⟩
  · intro h
    simp only [runRead, Context.readUint32]
    rw [if_pos h]
  · intro h
    simp only [runRead, Context.readUint16]
    rw [if_pos h]
  · intro h
    simp only [runRead, Context.readBytes]
    rw [if_pos h]
  · intro h
    simp only [runRead, Context.readUint32]
    rw [if_neg (by omega)]

theorem context_read_bounds_witness :
    (Context.IP { ip := 0, prog := [1, 2, 3], breakPoints := [] } + 4 > 3 ∧
      runRead Context.readUint32 { ip := 0, prog := [1, 2, 3], breakPoints := [] }
        = (VMState.faultState, none)) ∧
    (Context.IP { ip := -1, prog := [1, 0, 0, 0], breakPoints := [] } + 4 ≤ 4 ∧
      runRead Context.readUint32 { ip := -1, prog := [1, 0, 0, 0], breakPoints := [] }
        = (VMState.okState, some (1, { ip := 3, prog := [1, 0, 0, 0], breakPoints := [] }))) :=
  ⟨⟨by decide, (context_read_bounds _ 0).1 (by decide)⟩,
   ⟨by decide, by
      have := (context_read_bounds { ip := -1, prog := [1, 0, 0, 0], breakPoints := [] } 0).2.2.2
        (by decide)
      simpa using this⟩⟩

end VMCtx

namespace Arith

/-- C1: the arithmetic opcodes compute standard big-integer results on the
operands popped from the evaluation stack (ADD on operands 2 and 4 leaves
6, DIV on 4 and 2 leaves 2, MUL on 4 and 2 leaves 8), and any arithmetic
op whose result exceeds the maximum bit width faults with
ArithmeticOverflow instead of growing the integer. -/
theorem arith_ops_spec :
    (evalArith ArithOp.addOp [2, 4] = Except.ok [6]) ∧
    (evalArith ArithOp.divOp [2, 4] = Except.ok [2]) ∧
    (evalArith ArithOp.mulOp [2, 4] = Except.ok [8]) ∧
    (∀ (op : ArithOp) (a b r : Int) (rest : List Int),
        arithResult op a b = Except.ok r → fitsWidth r = false →
        evalArith op (b :: a :: rest) = Except.error VMFault.arithmeticOverflow) := by
  refine ⟨by rfl, by rfl, by rfl, ?_⟩
  intro op a b r rest hr hw
  simp [evalArith, hr, hw]

set_option maxRecDepth 4096 in
theorem arith_ops_spec_witness :
    arithResult ArithOp.addOp (2 ^ 256) 1 = Except.ok (2 ^ 256 + 1) ∧
    fitsWidth (2 ^ 256 + 1) = false ∧
    evalArith ArithOp.addOp [1, 2 ^ 256] = Except.error VMFault.arithmeticOverflow :=
  ⟨by rfl, by decide,
    arith_ops_spec.2.2.2 ArithOp.addOp (2 ^ 256) 1 (2 ^ 256 + 1) [] (by rfl) (by decide)⟩

end Arith

namespace TxHash

theorem getSignedPart_updateHashes (sha : List Nat → List Nat) (t : Transaction)
    (b c : List Nat) (hsp : getSignedPart t = some b) :
    getSignedPart (updateHashes sha t c) = some b := by
  simpa [getSignedPart, encodeHashableFields, updateHashes] using hsp

theorem hash_fresh (sha : List Nat → List Nat) (t : Transaction) (b : List Nat)
    (hh : t.hash = zeroU256) (hsp : getSignedPart t = some b) :
    Transaction.Hash sha t = some (sha (sha b), updateHashes sha t b) := by
  simp [Transaction.Hash, hh, createHash, hsp, updateHashes]

theorem verificationHash_fresh (sha : List Nat → List Nat) (t : Transaction) (b : List Nat)
    (hv : t.verificationHash = zeroU256) (hsp : getSignedPart t = some b) :
    Transaction.VerificationHash sha t = some (sha b, updateHashes sha t b) := by
  simp [Transaction.VerificationHash, hv, createHash, hsp, updateHashes]

theorem hash_stable (sha : List Nat → List Nat) (t : Transaction) (b : List Nat)
    (hsp : getSignedPart t = some b) :
    Transaction.Hash sha (updateHashes sha t b)
      = some (sha (sha b), updateHashes sha t b) := by
  have hsp' := getSignedPart_updateHashes sha t b b hsp
  by_cases hz : sha (sha b) = zeroU256
  · rw [Transaction.Hash,
      if_pos (show (updateHashes sha t b).hash = zeroU256 from hz),
      createHash, hsp']
    rfl
  · rw [Transaction.Hash,
      if_neg (show ¬ (updateHashes sha t b).hash = zeroU256 from hz)]
    rfl

theorem verificationHash_stable (sha : List Nat → List Nat) (t : Transaction) (b : List Nat)
    (hsp : getSignedPart t = some b) :
    Transaction.VerificationHash sha (updateHashes sha t b)
      = some (sha b, updateHashes sha t b) := by
  have hsp' := getSignedPart_updateHashes sha t b b hsp
  by_cases hz : sha b = zeroU256
  · rw [Transaction.VerificationHash,
      if_pos (show (updateHashes sha t b).verificationHash = zeroU256 from hz),
      createHash, hsp']
    rfl
  · rw [Transaction.VerificationHash,
      if_neg (show ¬ (updateHashes sha t b).verificationHash = zeroU256 from hz)]
    rfl

/-- C8: for a fresh transaction (hashes unset) with a nonempty script,
Hash() is the double SHA-256 and VerificationHash() the single SHA-256 of
the canonical signed-part encoding (network magic followed by the
hashable fields), and once computed both memoized hashes never change:
repeated calls on the updated transaction return the same values without
further mutation. -/
theorem transaction_hash_spec (sha : List Nat → List Nat) (t : Transaction)
    (hscript : t.script ≠ [])
    (hh : t.hash = zeroU256) (hv : t.verificationHash = zeroU256) :
    ∃ b, getSignedPart t = some b ∧
      Transaction.Hash sha t = some (sha (sha b), updateHashes sha t b) ∧
      Transaction.VerificationHash sha t = some (sha b, updateHashes sha t b) ∧
      Transaction.Hash sha (updateHashes sha t b) =
        some (sha (sha b), updateHashes sha t b) ∧
      Transaction.VerificationHash sha (updateHashes sha t b) =
        some (sha b, updateHashes sha t b) := by
  have hb : getSignedPart t = some (writeU32LE t.network ++
      ([t.version % 256] ++ writeU32LE t.nonce ++ t.sender ++
        writeU64LE t.systemFee ++ writeU64LE t.networkFee ++
        writeU32LE t.validUntilBlock ++ writeArray t.attributes ++
        writeArray t.cosigners ++ writeVarBytes t.script)) := by
    simp [getSignedPart, encodeHashableFields, hscript]
  exact ⟨_, hb, hash_fresh sha t _ hh hb, verificationHash_fresh sha t _ hv hb,
    hash_stable sha t _ hb, verificationHash_stable sha t _ hb⟩

theorem transaction_hash_spec_witness :
    (let t : Transaction :=
      { version := 0, nonce := 0, sender := List.replicate 20 0, systemFee := 0,
        networkFee := 0, validUntilBlock := 0, attributes := [], cosigners := [],
        script := [64], network := 0, hash := zeroU256, verificationHash := zeroU256 };
    let sha : List Nat → List Nat := fun bs => List.replicate 31 0 ++ [bs.length % 256 + 1];
    t.script ≠ [] ∧
    ∃ b, getSignedPart t = some b ∧
      Transaction.Hash sha t = some (sha (sha b), updateHashes sha t b) ∧
      Transaction.VerificationHash sha t = some (sha b, updateHashes sha t b) ∧
      Transaction.Hash sha (updateHashes sha t b) =
        some (sha (sha b), updateHashes sha t b) ∧
      Transaction.VerificationHash sha (updateHashes sha t b) =
        some (sha b, updateHashes sha t b)) :=
  ⟨by decide, transaction_hash_spec _ _ (by decide) (by decide) (by decide)⟩

end TxHash

namespace Storage

/-- C9: for a Find iterator positioned on a map entry whose key is the
byte string kb (with the deserialize and pick options unset, as in plain
Find): with values-only set (and keys-only unset, which would take
precedence) Value() returns only the value item, no key; with keys-only
set it returns only the key; with remove-prefix set the leading prefix
byte is removed from any key material exposed, whether as bare key or
inside the pair; and with neither keys-only nor values-only set it
returns the paired key-value Struct. -/
theorem find_iterator_value_spec (deserialize : List Nat → Option Item)
    (s : Iterator) (kb : List Nat) (v : Item)
    (hidx : 0 ≤ s.index)
    (helem : s.m[s.index.toNat]? = some (Item.byteArray kb, v))
    (hdeser : s.opts &&& FindDeserialize = 0)
    (hp0 : s.opts &&& FindPick0 = 0) (hp1 : s.opts &&& FindPick1 = 0) :
    (s.opts &&& FindValuesOnly ≠ 0 → s.opts &&& FindKeysOnly = 0 →
        (s.opts &&& FindRemovePrefixOpt = 0 ∨ kb ≠ []) →
        s.value deserialize = some v) ∧
    (s.opts &&& FindKeysOnly ≠ 0 → s.opts &&& FindRemovePrefixOpt = 0 →
        s.value deserialize = some (Item.byteArray kb)) ∧
    (s.opts &&& FindRemovePrefixOpt ≠ 0 → s.opts &&& FindKeysOnly ≠ 0 →
        ∀ b0 rest, kb = b0 :: rest →
        s.value deserialize = some (Item.byteArray rest)) ∧
    (s.opts &&& FindRemovePrefixOpt ≠ 0 → s.opts &&& FindKeysOnly = 0 →
        s.opts &&& FindValuesOnly = 0 →
        ∀ b0 rest, kb = b0 :: rest →
        s.value deserialize = some (Item.structItem [Item.byteArray rest, v])) ∧
    (s.opts &&& FindKeysOnly = 0 → s.opts &&& FindValuesOnly = 0 →
        s.opts &&& FindRemovePrefixOpt = 0 →
        s.value deserialize = some (Item.structItem [Item.byteArray kb, v])) := by
  refine ⟨?_, ?_, ?_, ?_, ?_⟩
  · intro hvo hko hrp
    rcases hrp with hrp | hrp
    · simp [Iterator.value, hidx, helem, asBytes, hvo, hko, hrp, hdeser, hp0, hp1]
    · match kb, helem with
      | b0 :: rest, helem =>
        by_cases hrp2 : s.opts &&& FindRemovePrefixOpt = 0
        · simp [Iterator.value, hidx, helem, asBytes, hvo, hko, hrp2, hdeser, hp0, hp1]
        · simp [Iterator.value, hidx, helem, asBytes, hvo, hko, hrp2, hdeser, hp0, hp1,
            List.tail?]
  · intro hko hrp
    simp [Iterator.value, hidx, helem, asBytes, hko, hrp]
  · intro hrp hko b0 rest hkb
    subst hkb
    simp [Iterator.value, hidx, helem, asBytes, hko, hrp, List.tail?]
  · intro hrp hko hvo b0 rest hkb
    subst hkb
    simp [Iterator.value, hidx, helem, asBytes, hko, hrp, hvo, hdeser, hp0, hp1,
      List.tail?]
  · intro hko hvo hrp
    simp [Iterator.value, hidx, helem, asBytes, hko, hvo, hrp, hdeser, hp0, hp1]

theorem find_iterator_value_spec_witness :
    (let it : Iterator :=
      { m := [(Item.byteArray [7, 1], Item.intItem 5)],
        opts := FindRemovePrefixOpt + FindValuesOnly, index := 0 };
    (0 : Int) ≤ it.index ∧
    (it.opts &&& FindValuesOnly ≠ 0 ∧
      it.value (fun _ => none) = some (Item.intItem 5))) := by
  refine ⟨by decide, by decide, ?_⟩
  exact ((find_iterator_value_spec (fun _ => none) _ [7, 1] (Item.intItem 5)
    (by decide) (by rfl) (by rfl) (by rfl) (by rfl)).1
    (by decide) (by rfl) (Or.inr (by simp)))

end Storage

end NeoGo
